import Mathlib

/-!
Shallow embedding of the quantitative core of the options-analysis repository:
`src/analyzers/monte_carlo.py`, `src/analyzers/monte_carlo_jax.py` and
`src/analyzers/greeks_calculator.py`.

Modelling conventions:
* machine floats are embedded as exact rationals where the code is pure
  arithmetic (every finite IEEE float is a rational), and as reals where the
  code applies `exp`, `log`, `sqrt` or the normal distribution;
* numpy's global random generator is modelled as an abstract seeded stream of
  standard-normal draws together with a counter of draws already consumed;
* fallible numpy/scipy calls are embedded in `Except`/`Option`.
-/

namespace MonteCarlo

/-- One option leg, as the dicts consumed by
`MonteCarloSimulator.calculate_option_payoff` (`src/analyzers/monte_carlo.py`
lines 160-164): fields `strike`, `qty`, `position` (`"long"`/`"short"`) and
`type` (`"call"`/`"put"`). -/
structure OptionPos where
  strike : ℚ
  qty : ℚ
  position : String
  type : String

/-- Intrinsic value of a leg at terminal price `sT`
(`monte_carlo.py` lines 196-199). -/
def intrinsic (is_call : Bool) (strike sT : ℚ) : ℚ :=
  if is_call then max (sT - strike) 0 else max (strike - sT) 0

/-- Direction sign of a leg: `+1` for a long leg, `-1` otherwise. -/
def direction_sign (pos : OptionPos) : ℚ :=
  if pos.position == "long" then 1 else -1

/-- One iteration of the effective (second) per-position loop of
`calculate_option_payoff` (`monte_carlo.py` lines 190-206): the vectorised
`payoffs += intrinsic * qty * 100` / `payoffs -= intrinsic * qty * 100`
acted out elementwise over the final-price array. -/
def payoffStep (final_prices : List ℚ) (payoffs : List ℚ) (pos : OptionPos) : List ℚ :=
  List.zipWith
    (fun pf sT =>
      if pos.position == "long" then
        pf + intrinsic (pos.type == "call") pos.strike sT * pos.qty * 100
      else
        pf - intrinsic (pos.type == "call") pos.strike sT * pos.qty * 100)
    payoffs final_prices

/-- `MonteCarloSimulator.calculate_option_payoff` (`monte_carlo.py` lines
149-208).  The first per-position loop of the source (lines 160-175) is dead
code: its accumulator is discarded by the reassignment
`payoffs = np.full(n_paths, entry_credit)` at line 188, so only the second
loop is embedded.  The array starts at `entry_credit` on every path. -/
def calculate_option_payoff (final_prices : List ℚ) (positions : List OptionPos)
    (entry_credit : ℚ) : List ℚ :=
  positions.foldl (payoffStep final_prices) (final_prices.map fun _ => entry_credit)

end MonteCarlo

namespace MonteCarloJax

open MonteCarlo (OptionPos intrinsic)

/-- Direction sign used by `MonteCarloJAX._calculate_option_payoff`
(`monte_carlo_jax.py` line 259): the `position` string is lowercased first. -/
def direction_sign (pos : OptionPos) : ℚ :=
  if pos.position.toLower == "long" then 1 else -1

/-- Per-position loop body of `MonteCarloJAX._calculate_option_payoff`
(`monte_carlo_jax.py` lines 256-268): `payoffs += direction * qty * intrinsic * 100`,
with the `type` string lowercased before classification. -/
def payoffStep (final_prices : List ℚ) (payoffs : List ℚ) (pos : OptionPos) : List ℚ :=
  List.zipWith
    (fun pf sT =>
      pf + direction_sign pos * pos.qty * intrinsic (pos.type.toLower == "call") pos.strike sT * 100)
    payoffs final_prices

/-- `MonteCarloJAX._calculate_option_payoff` (`monte_carlo_jax.py` lines
236-275): payoffs accumulate from zero over the legs, and the entry credit is
added once at the end (line 273), in dollars, without the 100 multiplier. -/
def calculate_option_payoff (final_prices : List ℚ) (positions : List OptionPos)
    (entry_credit : ℚ) : List ℚ :=
  (positions.foldl (payoffStep final_prices) (final_prices.map fun _ => 0)).map
    (· + entry_credit)

end MonteCarloJax

namespace MonteCarlo

/-- Per-path P&L asserted by the claim:
`entry_credit + sum over legs of direction_sign * quantity * 100 * intrinsic`. -/
def claimPnl (positions : List OptionPos) (entry_credit : ℚ)
    (dir : OptionPos → ℚ) (isCall : OptionPos → Bool) (sT : ℚ) : ℚ :=
  entry_credit +
    (positions.map fun pos => dir pos * pos.qty * 100 * intrinsic (isCall pos) pos.strike sT).sum

end MonteCarlo

namespace MonteCarlo

/-- numpy sorts the sample before interpolating percentiles; any comparison
sort of a multiset under a total order yields the same sorted list, embedded
here with insertion sort. -/
def npSort (a : List ℚ) : List ℚ := List.insertionSort (· ≤ ·) a

/-- Index lookup with the clip-to-last-index behaviour `np.percentile` uses
for the two interpolation neighbours. -/
def atClip (s : List ℚ) (i : ℕ) : ℚ := s.getD (min i (s.length - 1)) 0

/-- Linear interpolation of the sorted sample at fractional index `h` —
`np.percentile`'s default interpolation: neighbour index `⌊h⌋` and
interpolation weight `h - ⌊h⌋`. -/
def interpAt (s : List ℚ) (h : ℚ) : ℚ :=
  atClip s (Int.floor h).toNat +
    (h - Int.floor h) * (atClip s ((Int.floor h).toNat + 1) - atClip s (Int.floor h).toNat)

/-- `np.percentile(a, q)` with the default linear interpolation: virtual index
`q/100 * (n-1)` into the sorted sample.  numpy raises `IndexError` on an empty
sample; `percentileE` below is the raising variant. -/
def percentile (a : List ℚ) (q : ℚ) : ℚ :=
  interpAt (npSort a) (q / 100 * ((a.length : ℚ) - 1))

def percentileE (a : List ℚ) (q : ℚ) : Except String ℚ :=
  if a.isEmpty then
    Except.error "IndexError: cannot do a non-empty take from an empty axes."
  else Except.ok (percentile a q)

/-- `np.mean`.  On an empty array numpy produces NaN (with a warning, not an
exception); here the empty case is junk-valued as `0/0 = 0`, and every use
below is guarded so that this case never reaches a returned result. -/
def npMean (a : List ℚ) : ℚ := a.sum / (a.length : ℚ)

/-- `np.median`, which agrees with the 50th linear-interpolation percentile. -/
def npMedian (a : List ℚ) : ℚ := percentile a 50

/-- `np.min` along one path (one row of the price ensemble). -/
def pathMin (row : List ℚ) : ℚ :=
  match row with
  | [] => 0
  | x :: xs => xs.foldl min x

/-- `np.max` along one path. -/
def pathMax (row : List ℚ) : ℚ :=
  match row with
  | [] => 0
  | x :: xs => xs.foldl max x

/-- Python truthiness of an optional float: `None` and `0.0` are falsy.  Both
`run_simulation` breakeven guards (`if breakeven_lower:` at line 279 and
`if breakeven_upper:` at line 284) use it. -/
def truthy (x : Option ℚ) : Bool :=
  match x with
  | none => false
  | some b => b != 0

deriving instance DecidableEq for Except

/-- Statistics record built by `MonteCarloSimulator.run_simulation`
(`monte_carlo.py` lines 276-302). -/
structure SimStats where
  pop : ℚ
  pot_lower : ℚ
  pot_upper : ℚ
  expected_pl : ℚ
  median_pl : ℚ
  var_95 : ℚ
  var_99 : ℚ
  expected_shortfall_95 : ℚ
deriving DecidableEq

/-- Statistics block of `MonteCarloSimulator.run_simulation` (`monte_carlo.py`
lines 276-302), applied to an already-simulated price ensemble and the
per-path payoffs.  `np.mean`/`np.median` of an empty array only produce NaN,
while `np.percentile` raises `IndexError`; accordingly the only raising
operation is `percentileE`, reached whenever the payoff array is empty. -/
def run_simulation_stats (paths : List (List ℚ)) (payoffs : List ℚ)
    (breakeven_lower breakeven_upper : Option ℚ) : Except String SimStats := do
  let pop := npMean (payoffs.map fun x => if 0 < x then (1 : ℚ) else 0) * 100
  let pot_lower :=
    if truthy breakeven_lower then
      npMean (paths.map fun row =>
        if pathMin row ≤ breakeven_lower.getD 0 then (1 : ℚ) else 0) * 100
    else 0
  let pot_upper :=
    if truthy breakeven_upper then
      npMean (paths.map fun row =>
        if breakeven_upper.getD 0 ≤ pathMax row then (1 : ℚ) else 0) * 100
    else 0
  let expected_pl := npMean payoffs
  let median_pl := npMedian payoffs
  let var_95 ← percentileE payoffs 5
  let var_99 ← percentileE payoffs 1
  let losses_beyond_var := payoffs.filter fun x => decide (x ≤ var_95)
  let expected_shortfall_95 :=
    if 0 < losses_beyond_var.length then npMean losses_beyond_var else var_95
  Except.ok
    ⟨pop, pot_lower, pot_upper, expected_pl, median_pl, var_95, var_99, expected_shortfall_95⟩

end MonteCarlo

namespace MonteCarlo

/-- Model of numpy's global RandomState: `np.random.seed(s)` deterministically
reinitialises the generator, after which standard-normal draws are read off an
infinite per-seed stream; `pos` counts the draws already consumed by earlier
calls on the same global state. -/
structure NpRandom where
  stream : ℕ → ℝ
  pos : ℕ

/-- `np.random.standard_normal((rows, cols))`: consume `rows * cols` draws
row-major and advance the global state. -/
noncomputable def standard_normal (st : NpRandom) (rows cols : ℕ) : List (List ℝ) × NpRandom :=
  ((List.range rows).map fun p => (List.range cols).map fun t => st.stream (st.pos + p * cols + t),
   ⟨st.stream, st.pos + rows * cols⟩)

/-- `MonteCarloSimulator.__init__` (`monte_carlo.py` lines 42-45):
`np.random.seed(seed)` is called once, and only when `seed` is truthy — a
`None` or `0` seed leaves the global generator untouched. -/
def mc_init (seedStream : ℕ → ℕ → ℝ) (seed : Option ℕ) (st : NpRandom) : NpRandom :=
  match seed with
  | none => st
  | some s => if s ≠ 0 then ⟨seedStream s, 0⟩ else st

/-- Python `int(q)`: truncation toward zero. -/
def pyInt (q : ℚ) : ℤ :=
  if 0 ≤ q then Int.floor q else -(Int.floor (-q))

/-- Default step count of `simulate_gbm`/`simulate_heston` (`monte_carlo.py`
lines 68-69 and 116-117): `max(1, int(T * 252))` — note `int`, i.e.
truncation, not rounding. -/
def default_n_steps (T : ℚ) : ℕ := max 1 (pyInt (T * 252)).toNat

/-- One path of `simulate_gbm` (`monte_carlo.py` lines 68-85): the log-price
starts at `log S0` (line 82) and accumulates the cumulative sum of the
per-step log-returns `(mu - sigma^2/2)*dt + sigma*sqrt(dt)*Z` (lines 77-83);
prices are the exponentials (line 85).  Entry `t` of the path is
`exp(log S0 + sum of the first t log-returns)`. -/
noncomputable def gbm_path (S0 mu sigma dt : ℝ) (zrow : List ℝ) : List ℝ :=
  (List.range (zrow.length + 1)).map fun t =>
    Real.exp (Real.log S0 +
      ((zrow.map fun z => (mu - sigma ^ 2 / 2) * dt + sigma * Real.sqrt dt * z).take t).sum)

/-- `MonteCarloSimulator.simulate_gbm` with an explicit step count: draw the
shock matrix from the global generator and map each row to a price path. -/
noncomputable def simulate_gbm (n_paths : ℕ) (S0 mu sigma : ℝ) (T : ℚ) (n_steps : ℕ) (st : NpRandom) :
    List (List ℝ) × NpRandom :=
  let dt : ℝ := (T : ℝ) / (n_steps : ℝ)
  let Z := standard_normal st n_paths n_steps
  (Z.1.map fun zrow => gbm_path S0 mu sigma dt zrow, Z.2)

/-- `simulate_gbm` with the `n_steps=None` default of the source. -/
noncomputable def simulate_gbm_default (n_paths : ℕ) (S0 mu sigma : ℝ) (T : ℚ) (n_steps : Option ℕ)
    (st : NpRandom) : List (List ℝ) × NpRandom :=
  simulate_gbm n_paths S0 mu sigma T (n_steps.getD (default_n_steps T)) st

/-- Variance recurrence of `MonteCarloSimulator.simulate_heston`
(`monte_carlo.py` lines 133-147) along one path: clamp before use
(line 135), Euler update (line 139), clamp again after the update
(line 140). -/
noncomputable def heston_v (v0 kappa theta xi dt : ℝ) (w2 : ℕ → ℝ) : ℕ → ℝ
  | 0 => v0
  | t + 1 =>
    let vt := heston_v v0 kappa theta xi dt w2 t
    let v_pos := max vt 0
    max (vt + kappa * (theta - v_pos) * dt + xi * Real.sqrt v_pos * Real.sqrt dt * w2 t) 0

/-- Price recurrence of `MonteCarloSimulator.simulate_heston`
(`monte_carlo.py` lines 142-145) along one path:
`S[:,t+1] = S[:,t] * exp((mu - v_pos/2)*dt + sqrt(v_pos)*sqrt(dt)*W1[:,t])`,
with `v_pos` the clamped variance of `heston_v` at step `t`. -/
noncomputable def heston_S (S0 v0 mu kappa theta xi dt : ℝ) (w1 w2 : ℕ → ℝ) : ℕ → ℝ
  | 0 => S0
  | t + 1 =>
    let v_pos := max (heston_v v0 kappa theta xi dt w2 t) 0
    heston_S S0 v0 mu kappa theta xi dt w1 w2 t *
      Real.exp ((mu - v_pos / 2) * dt + Real.sqrt v_pos * Real.sqrt dt * w1 t)

/-- `MonteCarloSimulator.simulate_heston` (`monte_carlo.py` lines 87-147)
with explicit step count: two standard-normal matrices `Z1`, `Z2` are drawn
sequentially from the global generator (lines 122-123) — consuming
`2 * n_paths * n_steps` draws in total — and correlated into `W1 = Z1` and
`W2 = rho*Z1 + sqrt(1 - rho^2)*Z2` (lines 124-125); each path's price row
follows the `heston_S` recurrence (with its `heston_v` variance), and the
price array `S` is returned (line 147). -/
noncomputable def simulate_heston (n_paths : ℕ) (S0 v0 mu kappa theta xi rho : ℝ)
    (T : ℚ) (n_steps : ℕ) (st : NpRandom) : List (List ℝ) × NpRandom :=
  let dt : ℝ := (T : ℝ) / (n_steps : ℝ)
  let Z1 := standard_normal st n_paths n_steps
  let Z2 := standard_normal Z1.2 n_paths n_steps
  (List.zipWith
    (fun z1row z2row =>
      let w1 : ℕ → ℝ := fun t => z1row.getD t 0
      let w2 : ℕ → ℝ := fun t =>
        rho * z1row.getD t 0 + Real.sqrt (1 - rho ^ 2) * z2row.getD t 0
      (List.range (n_steps + 1)).map fun t => heston_S S0 v0 mu kappa theta xi dt w1 w2 t)
    Z1.1 Z2.1, Z2.2)

end MonteCarlo

namespace MonteCarloJax

/-- `MonteCarloJAX._simulate_gbm_numpy` (`monte_carlo_jax.py` lines 122-146):
reseeds the global generator with the instance seed on every call, and
returns `S0 * exp(cumsum(log_returns))` — `n_steps` columns per path, with
no spot column (`cumsum` starts at the first log-return, line 142). -/
noncomputable def simulate_gbm_numpy (seedStream : ℕ → ℕ → ℝ) (seed : ℕ) (n_paths : ℕ)
    (S0 mu sigma : ℝ) (T : ℚ) (n_steps : ℕ) : List (List ℝ) :=
  let st : MonteCarlo.NpRandom := ⟨seedStream seed, 0⟩
  let dt : ℝ := (T : ℝ) / (n_steps : ℝ)
  let Z := MonteCarlo.standard_normal st n_paths n_steps
  Z.1.map fun zrow =>
    (List.range n_steps).map fun t =>
      S0 * Real.exp
        (((zrow.map fun z => (mu - sigma ^ 2 / 2) * dt + sigma * Real.sqrt dt * z).take
          (t + 1)).sum)

/-- Variance recurrence of `MonteCarloJAX._simulate_heston_numpy`
(`monte_carlo_jax.py` lines 227-234) along one path: the clamp
`np.maximum(v[:, t], 0)` is applied before use only (line 228) — the stored
updated variance `v[:, t+1]` (line 232) is not clamped. -/
noncomputable def heston_v_numpy (v0 kappa theta sigma_v dt : ℝ) (w_v : ℕ → ℝ) : ℕ → ℝ
  | 0 => v0
  | t + 1 =>
    let v_t := max (heston_v_numpy v0 kappa theta sigma_v dt w_v t) 0
    v_t + kappa * (theta - v_t) * dt + sigma_v * Real.sqrt (v_t * dt) * w_v t

end MonteCarloJax

namespace GreeksCalculator

/-- Market-data dict as read by `GreeksCalculator`
(`src/analyzers/greeks_calculator.py`): `market.get('current_price')` may be
absent (`None`). -/
structure MarketData where
  current_price : Option ℝ

/-- Option-position dict as read by the Greeks calculator: `strike`, `dte`,
`type` and the optional `current_premium` (read with `.get`, default 0). -/
structure GreekPos where
  strike : ℝ
  dte : ℝ
  type : String
  current_premium : Option ℝ

/-- `np.log` restricted to its real domain: for `x ≤ 0` the float result is
NaN or `-inf`, i.e. not a finite real; `none` models that. -/
noncomputable def npLog (x : ℝ) : Option ℝ :=
  if 0 < x then some (Real.log x) else none

/-- Round half to even (Python's `round`) at integer scale. -/
noncomputable def roundHalfEven (x : ℝ) : ℤ :=
  if Int.fract x = 1 / 2 then (if Even (Int.floor x) then Int.floor x else Int.floor x + 1)
  else round x

/-- Python `round(x, n)`. -/
noncomputable def pyRound (x : ℝ) (n : ℕ) : ℝ :=
  ((roundHalfEven (x * 10 ^ n) : ℤ) : ℝ) / 10 ^ n

/-- `scipy.stats.norm.pdf`. -/
noncomputable def normPdf (x : ℝ) : ℝ :=
  Real.exp (-(x ^ 2) / 2) / Real.sqrt (2 * Real.pi)

/-- `GreeksCalculator._bs_price` (`greeks_calculator.py` lines 81-96).  The
standard normal CDF has no closed form and is supplied as the function
argument `cdf` (the source calls `scipy.stats.norm.cdf`).  In the
non-degenerate branch the result is `none` exactly when the moneyness ratio
leaves the domain of `log` (a NaN float in the source). -/
noncomputable def bs_price (cdf : ℝ → ℝ) (S K T r sigma : ℝ) (is_call : Bool) : Option ℝ :=
  if T ≤ 0 ∨ sigma ≤ 0 then
    some (if is_call then max (S - K) 0 else max (K - S) 0)
  else
    (npLog (S / K)).map fun lg =>
      let d1 := (lg + (r + sigma ^ 2 / 2) * T) / (sigma * Real.sqrt T)
      let d2 := d1 - sigma * Real.sqrt T
      if is_call then S * cdf d1 - K * Real.exp (-(r * T)) * cdf d2
      else K * Real.exp (-(r * T)) * cdf (-d2) - S * cdf (-d1)

/-- Objective function closed over by `_calculate_implied_vol` (lines 63-67):
`bs_price(sigma) - option_price`.  For `sigma ≤ 0` the source returns
`float('inf')`, a value the bracketed solver never sees because it only
evaluates inside `[0.01, 3.0]`; it is modelled as no-real-value. -/
noncomputable def iv_objective (cdf : ℝ → ℝ) (S K T r option_price : ℝ) (is_call : Bool)
    (sigma : ℝ) : Option ℝ :=
  if sigma ≤ 0 then none
  else (bs_price cdf S K T r sigma is_call).map fun bs => bs - option_price

/-- A bracketed solver fails on `[a, b]` when the objective does not take
finite values of opposite (or zero) sign at the two ends — scipy's
documented precondition for `brentq` ("f(a) and f(b) must have opposite
signs"), violated both for same-sign ends (`ValueError`) and for NaN ends. -/
def brentqFails (f : ℝ → Option ℝ) (a b : ℝ) : Prop :=
  ∀ fa fb, f a = some fa → f b = some fb → 0 < fa * fb

/-- The documented contract of `scipy.optimize.brentq(f, a, b, xtol, maxiter)`,
packaged for an arbitrary implementation: a returned root lies in the
bracket, and a bracket without a sign change raises `ValueError`.  (Any other
raise — e.g. `RuntimeError` on non-convergence — is also an
`Except.error`.) -/
structure BrentqSpec
    (brentq : (ℝ → Option ℝ) → ℝ → ℝ → ℝ → ℕ → Except Unit ℝ) : Prop where
  mem_of_ok : ∀ f a b xtol maxiter root,
    brentq f a b xtol maxiter = Except.ok root → a ≤ root ∧ root ≤ b
  error_of_no_sign_change : ∀ f a b xtol maxiter,
    brentqFails f a b → brentq f a b xtol maxiter = Except.error ()

/-- `GreeksCalculator._calculate_implied_vol` (lines 43-79).  `brentq` is the
scipy routine, supplied as an argument; data flow follows the source:
`S = market.get('current_price')`, `option_price = pos.get('current_premium', 0)`,
`T = pos['dte']/365`, `r = 0.05`; the guard
`if not S or not option_price or T <= 0 or option_price <= 0` returns `None`;
a raised `ValueError` (no sign change) or any other exception also returns
`None`, while a solved root is returned rounded to 4 decimal places. -/
noncomputable def calculate_implied_vol
    (brentq : (ℝ → Option ℝ) → ℝ → ℝ → ℝ → ℕ → Except Unit ℝ)
    (cdf : ℝ → ℝ) (market : MarketData) (pos : GreekPos) : Option ℝ :=
  match market.current_price with
  | none => none
  | some S =>
    if S = 0 ∨ pos.current_premium.getD 0 = 0 ∨ pos.dte / 365 ≤ 0 ∨
        pos.current_premium.getD 0 ≤ 0 then none
    else
      match brentq
          (iv_objective cdf S pos.strike (pos.dte / 365) (5 / 100)
            (pos.current_premium.getD 0) (pos.type == "call"))
          (1 / 100) 3 (1 / 1000000) 100 with
      | Except.ok iv => some (pyRound iv 4)
      | Except.error _ => none

/-- Greeks dict returned by `GreeksCalculator._calculate_bs`. -/
structure GreeksDict where
  delta : Option ℝ
  gamma : Option ℝ
  theta : Option ℝ
  vega : Option ℝ
  iv : Option ℝ

/-- `GreeksCalculator._calculate_bs` (lines 98-134): a missing
`market['current_price']` raises `KeyError`, caught at line 133 (the
all-`None` dict); `T ≤ 0` or `sigma ≤ 0` returns the degenerate dict
`delta = gamma = theta = vega = 0, iv = sigma`; otherwise the closed-form
Greeks, rounded. -/
noncomputable def calculate_bs (cdf : ℝ → ℝ) (market : MarketData) (pos : GreekPos)
    (sigma : ℝ) : GreeksDict :=
  match market.current_price with
  | none => ⟨none, none, none, none, none⟩
  | some S =>
    if pos.dte / 365 ≤ 0 ∨ sigma ≤ 0 then
      ⟨some 0, some 0, some 0, some 0, some sigma⟩
    else
      let K := pos.strike
      let T := pos.dte / 365
      let r : ℝ := 5 / 100
      let d1 := (Real.log (S / K) + (r + sigma ^ 2 / 2) * T) / (sigma * Real.sqrt T)
      let d2 := d1 - sigma * Real.sqrt T
      let delta := if pos.type == "call" then cdf d1 else -(cdf (-d1))
      let theta :=
        if pos.type == "call" then
          (-(S * normPdf d1 * sigma) / (2 * Real.sqrt T) -
            r * K * Real.exp (-(r * T)) * cdf d2) / 365
        else
          (-(S * normPdf d1 * sigma) / (2 * Real.sqrt T) +
            r * K * Real.exp (-(r * T)) * cdf (-d2)) / 365
      let gamma := normPdf d1 / (S * sigma * Real.sqrt T)
      let vega := S * normPdf d1 * Real.sqrt T / 100
      ⟨some (pyRound delta 4), some (pyRound gamma 5), some (pyRound theta 4),
        some (pyRound vega 4), some (pyRound sigma 4)⟩

/-- Degenerate-branch delta asserted by the claim: the moneyness indicator —
1/0 for calls by `S > K`, -1/0 for puts by `S < K`. -/
noncomputable def claim_degenerate_delta (S K : ℝ) (is_call : Bool) : ℝ :=
  if is_call then (if K < S then 1 else 0) else (if S < K then -1 else 0)

/-- Enriched position fields written by `GreeksCalculator.enrich_positions`. -/
structure EnrichedGreeks where
  delta : Option ℝ
  gamma : Option ℝ
  theta : Option ℝ
  vega : Option ℝ
  iv : Option ℝ
  iv_source : String

/-- Per-position body of `GreeksCalculator.enrich_positions` (lines 15-41).
Python's `if iv and iv > 0.01` is true iff the solver returned a value that
is both truthy (nonzero) and greater than `0.01`. -/
noncomputable def enrich_position
    (brentq : (ℝ → Option ℝ) → ℝ → ℝ → ℝ → ℕ → Except Unit ℝ)
    (cdf : ℝ → ℝ) (market : MarketData) (pos : GreekPos) : EnrichedGreeks :=
  match calculate_implied_vol brentq cdf market pos with
  | some iv =>
    if iv ≠ 0 ∧ 1 / 100 < iv then
      let g := calculate_bs cdf market pos iv
      ⟨g.delta, g.gamma, g.theta, g.vega, g.iv, "calculated_from_price"⟩
    else ⟨none, none, none, none, none, "unavailable"⟩
  | none => ⟨none, none, none, none, none, "unavailable"⟩

/-- `GreeksCalculator.enrich_positions`: the per-position body mapped over
the position list. -/
noncomputable def enrich_positions
    (brentq : (ℝ → Option ℝ) → ℝ → ℝ → ℝ → ℕ → Except Unit ℝ)
    (cdf : ℝ → ℝ) (market : MarketData) (positions : List GreekPos) : List EnrichedGreeks :=
  positions.map (enrich_position brentq cdf market)

open Classical in
/-- Concrete bracketed solver satisfying `BrentqSpec`, used by witnesses. -/
noncomputable def brentqW : (ℝ → Option ℝ) → ℝ → ℝ → ℝ → ℕ → Except Unit ℝ :=
  fun f a b _ _ =>
    if ∃ fa fb, f a = some fa ∧ f b = some fb ∧ a ≤ b ∧ ¬0 < fa * fb then Except.ok a
    else Except.error ()

end GreeksCalculator

namespace MonteCarlo

theorem payoffStep_map (final_prices : List ℚ) (g : ℚ → ℚ) (pos : OptionPos) :
    payoffStep final_prices (final_prices.map g) pos =
      final_prices.map fun sT =>
        g sT + direction_sign pos * pos.qty * 100 * intrinsic (pos.type == "call") pos.strike sT := by
  unfold payoffStep direction_sign
  rw [List.zipWith_map_left]
  by_cases h : pos.position == "long" <;>
    simp only [h, if_true, if_false, Bool.false_eq_true] <;>
    · rw [List.zipWith_same]
      exact List.map_congr_left fun sT _ => by ring

theorem jax_payoffStep_map (final_prices : List ℚ) (g : ℚ → ℚ) (pos : OptionPos) :
    MonteCarloJax.payoffStep final_prices (final_prices.map g) pos =
      final_prices.map fun sT =>
        g sT + MonteCarloJax.direction_sign pos * pos.qty * 100 *
          intrinsic (pos.type.toLower == "call") pos.strike sT := by
  unfold MonteCarloJax.payoffStep
  rw [List.zipWith_map_left, List.zipWith_same]
  exact List.map_congr_left fun sT _ => by ring

theorem payoff_foldl (final_prices : List ℚ) (positions : List OptionPos) (g : ℚ → ℚ) :
    positions.foldl (payoffStep final_prices) (final_prices.map g) =
      final_prices.map fun sT =>
        g sT + (positions.map fun pos =>
          direction_sign pos * pos.qty * 100 *
            intrinsic (pos.type == "call") pos.strike sT).sum := by
  induction positions generalizing g with
  | nil => simp
  | cons p ps ih =>
    rw [List.foldl_cons, payoffStep_map, ih]
    exact List.map_congr_left fun sT _ => by simp [List.map_cons]; ring

theorem jax_payoff_foldl (final_prices : List ℚ) (positions : List OptionPos) (g : ℚ → ℚ) :
    positions.foldl (MonteCarloJax.payoffStep final_prices) (final_prices.map g) =
      final_prices.map fun sT =>
        g sT + (positions.map fun pos =>
          MonteCarloJax.direction_sign pos * pos.qty * 100 *
            intrinsic (pos.type.toLower == "call") pos.strike sT).sum := by
  induction positions generalizing g with
  | nil => simp
  | cons p ps ih =>
    rw [List.foldl_cons, jax_payoffStep_map, ih]
    exact List.map_congr_left fun sT _ => by simp [List.map_cons]; ring

/-- C1: for every position list, entry credit and array of simulated terminal
prices, both payoff evaluators return one P&L value per path, equal to
`entry_credit + sum over legs of direction_sign * quantity * 100 * intrinsic`,
where the intrinsic value is `max(S_T - K, 0)` for calls and `max(K - S_T, 0)`
for puts, the direction sign is `+1` for long legs and `-1` otherwise, and the
entry credit enters in dollars, without the 100 multiplier. -/
theorem payoff_matches_claim_formula (final_prices : List ℚ) (positions : List OptionPos)
    (entry_credit : ℚ) :
    calculate_option_payoff final_prices positions entry_credit =
        final_prices.map
          (claimPnl positions entry_credit direction_sign fun pos => pos.type == "call") ∧
      MonteCarloJax.calculate_option_payoff final_prices positions entry_credit =
        final_prices.map
          (claimPnl positions entry_credit MonteCarloJax.direction_sign
            fun pos => pos.type.toLower == "call") := by
  constructor
  · rw [calculate_option_payoff, show (final_prices.map fun _ => entry_credit) =
      final_prices.map (fun _ => entry_credit) from rfl, payoff_foldl]
    exact List.map_congr_left fun sT _ => by simp [claimPnl]
  · rw [MonteCarloJax.calculate_option_payoff, show (final_prices.map fun _ => (0:ℚ)) =
      final_prices.map (fun _ => (0:ℚ)) from rfl, jax_payoff_foldl, List.map_map]
    exact List.map_congr_left fun sT _ => by simp [claimPnl, Function.comp]; ring

end MonteCarlo

namespace MonteCarlo

theorem atClip_mono {s : List ℚ} (hs : s.Sorted (· ≤ ·)) {i j : ℕ} (hij : i ≤ j) :
    atClip s i ≤ atClip s j := by
  unfold atClip
  rcases s with _ | ⟨x, xs⟩
  · simp
  · have hlen : 0 < (x :: xs).length := by simp
    have h1 : min i ((x :: xs).length - 1) < (x :: xs).length :=
      lt_of_le_of_lt (min_le_right _ _) (by omega)
    have h2 : min j ((x :: xs).length - 1) < (x :: xs).length :=
      lt_of_le_of_lt (min_le_right _ _) (by omega)
    rw [List.getD_eq_getElem _ _ h1, List.getD_eq_getElem _ _ h2]
    have hle : min i ((x :: xs).length - 1) ≤ min j ((x :: xs).length - 1) := by omega
    have := hs.rel_get_of_le
      (a := ⟨min i ((x :: xs).length - 1), h1⟩) (b := ⟨min j ((x :: xs).length - 1), h2⟩)
      (by simpa using hle)
    simpa [List.get_eq_getElem] using this

theorem interpAt_mono {s : List ℚ} (hs : s.Sorted (· ≤ ·)) {h1 h2 : ℚ}
    (h0 : 0 ≤ h1) (h12 : h1 ≤ h2) : interpAt s h1 ≤ interpAt s h2 := by
  unfold interpAt
  have hf1 : (0 : ℚ) ≤ h1 - Int.floor h1 := sub_nonneg.mpr (Int.floor_le h1)
  have hf2 : (0 : ℚ) ≤ h2 - Int.floor h2 := sub_nonneg.mpr (Int.floor_le h2)
  have hg1 : h1 - Int.floor h1 < 1 := by
    have := Int.lt_floor_add_one h1; linarith
  have hfl : Int.floor h1 ≤ Int.floor h2 := Int.floor_le_floor h12
  have hfl0 : 0 ≤ Int.floor h1 := Int.floor_nonneg.mpr h0
  have hii : (Int.floor h1).toNat ≤ (Int.floor h2).toNat := Int.toNat_le_toNat hfl
  have hA1 : atClip s (Int.floor h1).toNat ≤ atClip s ((Int.floor h1).toNat + 1) :=
    atClip_mono hs (Nat.le_succ _)
  have hA2 : atClip s (Int.floor h2).toNat ≤ atClip s ((Int.floor h2).toNat + 1) :=
    atClip_mono hs (Nat.le_succ _)
  rcases Nat.lt_or_ge (Int.floor h1).toNat (Int.floor h2).toNat with hlt | hge
  · have hub : atClip s (Int.floor h1).toNat +
        (h1 - Int.floor h1) *
          (atClip s ((Int.floor h1).toNat + 1) - atClip s (Int.floor h1).toNat) ≤
        atClip s ((Int.floor h1).toNat + 1) := by
      nlinarith [mul_nonneg (by linarith : (0:ℚ) ≤ 1 - (h1 - Int.floor h1))
        (sub_nonneg.mpr hA1)]
    have hmid : atClip s ((Int.floor h1).toNat + 1) ≤ atClip s (Int.floor h2).toNat :=
      atClip_mono hs hlt
    have hlb : atClip s (Int.floor h2).toNat ≤ atClip s (Int.floor h2).toNat +
        (h2 - Int.floor h2) *
          (atClip s ((Int.floor h2).toNat + 1) - atClip s (Int.floor h2).toNat) := by
      nlinarith [mul_nonneg hf2 (sub_nonneg.mpr hA2)]
    linarith
  · have heq : (Int.floor h1).toNat = (Int.floor h2).toNat := le_antisymm hii hge
    have hz : Int.floor h1 = Int.floor h2 := by
      have e1 : ((Int.floor h1).toNat : ℤ) = Int.floor h1 := Int.toNat_of_nonneg hfl0
      have e2 : ((Int.floor h2).toNat : ℤ) = Int.floor h2 :=
        Int.toNat_of_nonneg (le_trans hfl0 hfl)
      omega
    rw [← heq, ← hz]
    have hgg : h1 - Int.floor h1 ≤ h2 - Int.floor h1 := by linarith
    nlinarith [mul_le_mul_of_nonneg_right hgg (sub_nonneg.mpr hA1)]

theorem percentile_mono (a : List ℚ) (ha : a ≠ []) {q1 q2 : ℚ}
    (h0 : 0 ≤ q1) (h12 : q1 ≤ q2) : percentile a q1 ≤ percentile a q2 := by
  unfold percentile
  have hs : (npSort a).Sorted (· ≤ ·) := List.sorted_insertionSort _ a
  have hn : (1 : ℚ) ≤ (a.length : ℚ) := by
    have : 1 ≤ a.length := List.length_pos.mpr ha
    exact_mod_cast this
  have hnn : (0 : ℚ) ≤ (a.length : ℚ) - 1 := by linarith
  exact interpAt_mono hs
    (mul_nonneg (div_nonneg h0 (by norm_num)) hnn)
    (mul_le_mul_of_nonneg_right (by linarith : q1 / 100 ≤ q2 / 100) hnn)

theorem npMean_le_of_forall_le {l : List ℚ} {c : ℚ} (hl : l ≠ []) (h : ∀ x ∈ l, x ≤ c) :
    npMean l ≤ c := by
  unfold npMean
  have hlen : (0 : ℚ) < (l.length : ℚ) := by
    have : 0 < l.length := List.length_pos.mpr hl
    exact_mod_cast this
  rw [div_le_iff₀ hlen]
  have := List.sum_le_card_nsmul l c h
  simpa [nsmul_eq_mul, mul_comm] using this

/-- Value of the statistics block on a non-empty payoff array: every field,
written out. -/
theorem run_simulation_stats_ok (paths : List (List ℚ)) (payoffs : List ℚ)
    (bl bu : Option ℚ) (hp : payoffs ≠ []) :
    run_simulation_stats paths payoffs bl bu = Except.ok
      ⟨npMean (payoffs.map fun x => if 0 < x then (1 : ℚ) else 0) * 100,
       (if truthy bl then
          npMean (paths.map fun row => if pathMin row ≤ bl.getD 0 then (1 : ℚ) else 0) * 100
        else 0),
       (if truthy bu then
          npMean (paths.map fun row => if bu.getD 0 ≤ pathMax row then (1 : ℚ) else 0) * 100
        else 0),
       npMean payoffs, npMedian payoffs,
       percentile payoffs 5, percentile payoffs 1,
       (if 0 < (payoffs.filter fun x => decide (x ≤ percentile payoffs 5)).length
        then npMean (payoffs.filter fun x => decide (x ≤ percentile payoffs 5))
        else percentile payoffs 5)⟩ := by
  have hne : payoffs.isEmpty = false := by simpa [List.isEmpty_iff] using hp
  simp [run_simulation_stats, percentileE, hne, Bind.bind, Except.bind]

end MonteCarlo

namespace MonteCarlo

/-- Concrete evaluations of the statistics block, used by the witnesses and
counterexamples below. -/
theorem stats_eval_two_point : run_simulation_stats [] [0, 10] none none =
    Except.ok ⟨50, 0, 0, 5, 5, 1/2, 1/10, 0⟩ := by
  norm_num [run_simulation_stats, percentileE, percentile, npSort, interpAt, atClip, npMean,
    npMedian, truthy, pathMin, pathMax, Bind.bind, Except.bind, List.filter]

theorem stats_eval_zero_threshold : run_simulation_stats [[1]] [1] none (some 0) =
    Except.ok ⟨100, 0, 0, 1, 1, 1, 1, 1⟩ := by
  norm_num [run_simulation_stats, percentileE, percentile, npSort, interpAt, atClip, npMean,
    npMedian, truthy, pathMin, pathMax, Bind.bind, Except.bind, List.filter]

theorem stats_eval_lower_touch : run_simulation_stats [[1], [3]] [1, 3] (some 2) none =
    Except.ok ⟨100, 50, 0, 2, 2, 11/10, 51/50, 1⟩ := by
  norm_num [run_simulation_stats, percentileE, percentile, npSort, interpAt, atClip, npMean,
    npMedian, truthy, pathMin, pathMax, Bind.bind, Except.bind, List.filter]

theorem stats_eval_constant : run_simulation_stats [[1], [1]] [5, 5] none none =
    Except.ok ⟨100, 0, 0, 5, 5, 5, 5, 5⟩ := by
  norm_num [run_simulation_stats, percentileE, percentile, npSort, interpAt, atClip, npMean,
    npMedian, truthy, pathMin, pathMax, Bind.bind, Except.bind, List.filter]

/-- C6: for every non-empty PnL sample, the risk report built by
`run_simulation` satisfies `var_99 ≤ var_95` and
`expected_shortfall_95 ≤ var_95`, where `var_95`/`var_99` are the 5th/1st
linear-interpolation percentiles of the payoff array and the expected
shortfall is the mean of the payoffs at or below `var_95`, falling back to
`var_95` itself when that set is empty. -/
theorem var_ordering (paths : List (List ℚ)) (payoffs : List ℚ) (bl bu : Option ℚ)
    (s : SimStats) (hp : payoffs ≠ [])
    (hok : run_simulation_stats paths payoffs bl bu = Except.ok s) :
    s.var_99 ≤ s.var_95 ∧ s.expected_shortfall_95 ≤ s.var_95 ∧
      s.var_95 = percentile payoffs 5 ∧ s.var_99 = percentile payoffs 1 := by
  rw [run_simulation_stats_ok paths payoffs bl bu hp] at hok
  injection hok with h
  subst h
  refine ⟨percentile_mono payoffs hp (by norm_num) (by norm_num), ?_, rfl, rfl⟩
  show (if 0 < (payoffs.filter fun x => decide (x ≤ percentile payoffs 5)).length
        then npMean (payoffs.filter fun x => decide (x ≤ percentile payoffs 5))
        else percentile payoffs 5) ≤ percentile payoffs 5
  by_cases hlen : 0 < (payoffs.filter fun x => decide (x ≤ percentile payoffs 5)).length
  · rw [if_pos hlen]
    apply npMean_le_of_forall_le
    · intro hnil
      rw [hnil] at hlen
      simp at hlen
    · intro x hx
      have := List.of_mem_filter hx
      simpa using this
  · rw [if_neg hlen]

theorem var_ordering_witness :
    (⟨50, 0, 0, 5, 5, 1/2, 1/10, 0⟩ : SimStats).var_99 ≤
        (⟨50, 0, 0, 5, 5, 1/2, 1/10, 0⟩ : SimStats).var_95 ∧
      (⟨50, 0, 0, 5, 5, 1/2, 1/10, 0⟩ : SimStats).expected_shortfall_95 ≤
        (⟨50, 0, 0, 5, 5, 1/2, 1/10, 0⟩ : SimStats).var_95 ∧
      (⟨50, 0, 0, 5, 5, 1/2, 1/10, 0⟩ : SimStats).var_95 = percentile [0, 10] 5 ∧
      (⟨50, 0, 0, 5, 5, 1/2, 1/10, 0⟩ : SimStats).var_99 = percentile [0, 10] 1 :=
  var_ordering [] [0, 10] none none ⟨50, 0, 0, 5, 5, 1/2, 1/10, 0⟩ (by decide)
    stats_eval_two_point

theorem indicator_sum_eq_countP {α : Type} (l : List α) (p : α → Prop) [DecidablePred p] :
    (l.map fun x => if p x then (1 : ℚ) else 0).sum =
      ((l.countP fun x => decide (p x) : ℕ) : ℚ) := by
  induction l with
  | nil => simp
  | cons x xs ih =>
    by_cases hx : p x <;> simp [List.countP_cons, hx, ih, add_comm]

theorem foldl_min_le_iff (xs : List ℚ) (x b : ℚ) :
    xs.foldl min x ≤ b ↔ x ≤ b ∨ ∃ y ∈ xs, y ≤ b := by
  induction xs generalizing x with
  | nil => simp
  | cons y ys ih =>
    rw [List.foldl_cons, ih, min_le_iff]
    simp only [List.mem_cons, exists_eq_or_imp, or_assoc]

theorem le_foldl_max_iff (xs : List ℚ) (x b : ℚ) :
    b ≤ xs.foldl max x ↔ b ≤ x ∨ ∃ y ∈ xs, b ≤ y := by
  induction xs generalizing x with
  | nil => simp
  | cons y ys ih =>
    rw [List.foldl_cons, ih, le_max_iff]
    simp only [List.mem_cons, exists_eq_or_imp, or_assoc]

theorem pathMin_le_iff (row : List ℚ) (b : ℚ) (hrow : row ≠ []) :
    pathMin row ≤ b ↔ ∃ x ∈ row, x ≤ b := by
  match row with
  | [] => exact absurd rfl hrow
  | x :: xs =>
    rw [pathMin, foldl_min_le_iff]
    simp only [List.mem_cons, exists_eq_or_imp]

theorem le_pathMax_iff (row : List ℚ) (b : ℚ) (hrow : row ≠ []) :
    b ≤ pathMax row ↔ ∃ x ∈ row, b ≤ x := by
  match row with
  | [] => exact absurd rfl hrow
  | x :: xs =>
    rw [pathMax, le_foldl_max_iff]
    simp only [List.mem_cons, exists_eq_or_imp]

/-- C8 amended: when a breakeven threshold is supplied and is nonzero (Python
truthiness treats a supplied `0.0` exactly like an absent threshold), the
touch probabilities are the percentage of paths whose full-path minimum is at
or below the lower threshold, respectively whose full-path maximum is at or
above the upper threshold; a supplied threshold of `0` (or none) yields `0`.
The last two conjuncts relate the row minimum/maximum to "some time step of
the path crosses the threshold". -/
theorem touch_probability_formula (paths : List (List ℚ)) (payoffs : List ℚ)
    (bl bu : Option ℚ) (s : SimStats) (hp : payoffs ≠ [])
    (hok : run_simulation_stats paths payoffs bl bu = Except.ok s) :
    (∀ b, bl = some b → b ≠ 0 →
      s.pot_lower =
        100 * ((paths.countP fun row => decide (pathMin row ≤ b) : ℕ) : ℚ) /
          (paths.length : ℚ))
    ∧ (∀ b, bu = some b → b ≠ 0 →
      s.pot_upper =
        100 * ((paths.countP fun row => decide (b ≤ pathMax row) : ℕ) : ℚ) /
          (paths.length : ℚ))
    ∧ (bl = some 0 ∨ bl = none → s.pot_lower = 0)
    ∧ (bu = some 0 ∨ bu = none → s.pot_upper = 0)
    ∧ (∀ row b, row ≠ [] → (pathMin row ≤ b ↔ ∃ x ∈ row, x ≤ b))
    ∧ (∀ row b, row ≠ [] → (b ≤ pathMax row ↔ ∃ x ∈ row, b ≤ x)) := by
  rw [run_simulation_stats_ok paths payoffs bl bu hp] at hok
  injection hok with h
  subst h
  refine ⟨?_, ?_, ?_, ?_,
    fun row b hrow => pathMin_le_iff row b hrow,
    fun row b hrow => le_pathMax_iff row b hrow⟩
  · intro b hbl hb
    subst hbl
    show (if truthy (some b) then
        npMean (paths.map fun row => if pathMin row ≤ (some b).getD 0 then (1:ℚ) else 0) * 100
      else 0) = _
    have ht : truthy (some b) = true := by simp [truthy, hb]
    rw [if_pos ht]
    simp only [Option.getD_some]
    rw [npMean, indicator_sum_eq_countP paths (fun row => pathMin row ≤ b)]
    rw [List.length_map]
    ring
  · intro b hbu hb
    subst hbu
    show (if truthy (some b) then
        npMean (paths.map fun row => if (some b).getD 0 ≤ pathMax row then (1:ℚ) else 0) * 100
      else 0) = _
    have ht : truthy (some b) = true := by simp [truthy, hb]
    rw [if_pos ht]
    simp only [Option.getD_some]
    rw [npMean, indicator_sum_eq_countP paths (fun row => b ≤ pathMax row)]
    rw [List.length_map]
    ring
  · rintro (h | h) <;> subst h <;> simp [truthy]
  · rintro (h | h) <;> subst h <;> simp [truthy]

/-- C8 counterexample: on the one-path ensemble `[[1]]` with payoff `[1]` and
a supplied upper breakeven of `0`, the code returns `pot_upper = 0` (the zero
threshold is falsy and skipped), while the claimed fraction of paths whose
maximum reaches the threshold is `100`. -/
theorem touch_probability_counterexample :
    (run_simulation_stats [[1]] [1] none (some 0)).map SimStats.pot_upper = Except.ok 0 ∧
      100 * ((([[(1 : ℚ)]]).countP fun row => decide ((0 : ℚ) ≤ pathMax row) : ℕ) : ℚ) /
          (([[(1 : ℚ)]] : List (List ℚ)).length : ℚ) = 100 ∧
      (0 : ℚ) ≠ 100 := by
  refine ⟨by rw [stats_eval_zero_threshold]; rfl,
    by norm_num [pathMax, List.countP, List.countP.go], by norm_num⟩

theorem touch_probability_formula_witness :
    ((run_simulation_stats [[1], [3]] [1, 3] (some 2) none).map SimStats.pot_lower =
        Except.ok 50) ∧
      100 * ((([[(1 : ℚ)], [3]]).countP fun row => decide (pathMin row ≤ 2) : ℕ) : ℚ) /
          (([[(1 : ℚ)], [3]] : List (List ℚ)).length : ℚ) = 50 := by
  have h := (touch_probability_formula [[1], [3]] [1, 3] (some 2) none
    ⟨100, 50, 0, 2, 2, 11/10, 51/50, 1⟩ (by decide) stats_eval_lower_touch).1 2 rfl
    (by norm_num)
  constructor
  · rw [stats_eval_lower_touch]
    simp only [Except.map, h]
  · norm_num [pathMin, List.countP, List.countP.go]

/-- C9: with zero simulated paths the payoff array is empty; `np.mean` and
`np.median` only produce NaN there, but `np.percentile` raises `IndexError`,
so the risk aggregation raises instead of returning statistics.  With a
constant non-empty PnL array (second conjunct) every statistic is returned
well-defined. -/
theorem zero_paths_raises :
    run_simulation_stats [] [] none none =
        Except.error "IndexError: cannot do a non-empty take from an empty axes." ∧
      run_simulation_stats [[1], [1]] [5, 5] none none =
        Except.ok ⟨100, 0, 0, 5, 5, 5, 5, 5⟩ := by
  exact ⟨rfl, stats_eval_constant⟩

end MonteCarlo

namespace MonteCarlo

/-- C2 amended: in `MonteCarloSimulator.simulate_heston` the variance is
clamped to `max(v, 0)` before use and the updated variance is clamped again
after the update, so for a nonnegative initial variance every stored variance
value along every path is nonnegative at every step.  (In the
`MonteCarloJAX` Heston simulators the post-update clamp is absent — see the
counterexample.) -/
theorem heston_variance_nonneg (v0 kappa theta xi dt : ℝ) (w2 : ℕ → ℝ) (h : 0 ≤ v0) :
    ∀ t, 0 ≤ heston_v v0 kappa theta xi dt w2 t := by
  intro t
  cases t with
  | zero => exact h
  | succ t => exact le_max_right _ _

theorem heston_variance_nonneg_witness :
    (0 : ℝ) ≤ 1 ∧ 0 ≤ heston_v 1 2 (1 / 25) (3 / 10) (1 / 252) (fun _ => -2) 3 :=
  ⟨by norm_num, heston_variance_nonneg 1 2 (1 / 25) (3 / 10) (1 / 252) (fun _ => -2)
    (by norm_num) 3⟩

/-- C2 counterexample: in `MonteCarloJAX._simulate_heston_numpy` the stored
updated variance is not clamped, so starting from the nonnegative variance
`v0 = 1` with `kappa = 0`, `theta = 0`, `sigma_v = 1`, `dt = 1` and a shock of
`-2`, the stored variance after one step is `-1 < 0`. -/
theorem heston_variance_counterexample :
    MonteCarloJax.heston_v_numpy 1 0 0 1 1 (fun _ => -2) 1 < 0 := by
  show (max (MonteCarloJax.heston_v_numpy 1 0 0 1 1 (fun _ => -2) 0) 0) +
      0 * (0 - max (MonteCarloJax.heston_v_numpy 1 0 0 1 1 (fun _ => -2) 0) 0) * 1 +
      1 * Real.sqrt ((max (MonteCarloJax.heston_v_numpy 1 0 0 1 1 (fun _ => -2) 0) 0) * 1) *
        (-2) < 0
  rw [show MonteCarloJax.heston_v_numpy 1 0 0 1 1 (fun _ => -2) 0 = 1 from rfl,
    max_eq_left zero_le_one]
  norm_num [Real.sqrt_one]

/-- C3 amended: the seed is applied once, at simulator construction.  For
both models, fresh instances constructed with the same nonzero seed produce
identical ensembles on their first `simulate` call regardless of the prior
global generator state; but every call advances the global stream position —
by `n_paths * n_steps` draws for `simulate_gbm` and by
`2 * n_paths * n_steps` draws for `simulate_heston`, which draws the two
shock matrices `Z1` and `Z2` — so a second call on the same instance reads a
disjoint stream segment (see the counterexample). -/
theorem seed_reproducibility (seedStream : ℕ → ℕ → ℝ) (s : ℕ) (hs : s ≠ 0)
    (n_paths : ℕ) (S0 v0 mu sigma kappa theta xi rho : ℝ) (T : ℚ) (n_steps : ℕ)
    (st1 st2 : NpRandom) :
    (simulate_gbm n_paths S0 mu sigma T n_steps (mc_init seedStream (some s) st1)).1 =
        (simulate_gbm n_paths S0 mu sigma T n_steps (mc_init seedStream (some s) st2)).1
    ∧ (simulate_heston n_paths S0 v0 mu kappa theta xi rho T n_steps
          (mc_init seedStream (some s) st1)).1 =
        (simulate_heston n_paths S0 v0 mu kappa theta xi rho T n_steps
          (mc_init seedStream (some s) st2)).1
    ∧ (∀ st : NpRandom, ((simulate_gbm n_paths S0 mu sigma T n_steps st).2).pos =
        st.pos + n_paths * n_steps)
    ∧ (∀ st : NpRandom,
        ((simulate_heston n_paths S0 v0 mu kappa theta xi rho T n_steps st).2).pos =
          st.pos + n_paths * n_steps + n_paths * n_steps) := by
  refine ⟨?_, ?_, fun st => rfl, fun st => rfl⟩
  · simp [mc_init, hs]
  · simp [mc_init, hs]

theorem seed_reproducibility_witness :
    ((simulate_gbm 1 1 (1/2) 1 1 1
        (mc_init (fun _ n => (n : ℝ)) (some 1) ⟨fun _ => 0, 0⟩)).1 =
        (simulate_gbm 1 1 (1/2) 1 1 1
          (mc_init (fun _ n => (n : ℝ)) (some 1) ⟨fun _ => 1, 5⟩)).1)
    ∧ ((simulate_heston 1 1 1 (1/2) 0 0 1 0 1 1
          (mc_init (fun _ n => (n : ℝ)) (some 1) ⟨fun _ => 0, 0⟩)).1 =
        (simulate_heston 1 1 1 (1/2) 0 0 1 0 1 1
          (mc_init (fun _ n => (n : ℝ)) (some 1) ⟨fun _ => 1, 5⟩)).1)
    ∧ (∀ st : NpRandom, ((simulate_gbm 1 1 (1/2) 1 1 1 st).2).pos = st.pos + 1 * 1)
    ∧ (∀ st : NpRandom, ((simulate_heston 1 1 1 (1/2) 0 0 1 0 1 1 st).2).pos =
        st.pos + 1 * 1 + 1 * 1) :=
  seed_reproducibility (fun _ n => (n : ℝ)) 1 (by decide) 1 1 1 (1/2) 1 0 0 1 0 1 1
    ⟨fun _ => 0, 0⟩ ⟨fun _ => 1, 5⟩

/-- Explicit value of a one-path, one-step GBM simulation. -/
theorem simulate_gbm_one_step_eval (g : ℕ → ℝ) (p : ℕ) (S0 mu sigma : ℝ) (T : ℚ) :
    (simulate_gbm 1 S0 mu sigma T 1 ⟨g, p⟩).1 =
      [[Real.exp (Real.log S0),
        Real.exp (Real.log S0 +
          ((mu - sigma ^ 2 / 2) * ((T : ℝ) / ((1 : ℕ) : ℝ)) +
            sigma * Real.sqrt ((T : ℝ) / ((1 : ℕ) : ℝ)) * g p))]] := by
  simp [simulate_gbm, standard_normal, gbm_path, List.range_succ]

/-- C3 counterexample: two successive `simulate_gbm` calls on the same
instance (seed 1, one path, one step, `S0 = 1`, `mu = 1/2`, `sigma = 1`,
`T = 1`) read positions 0 and 1 of the seeded normal stream; with the stream
`n ↦ n` the first call returns `[[1, 1]]` and the second `[[1, e]]`. -/
theorem gbm_successive_calls_counterexample :
    (simulate_gbm 1 1 (1/2) 1 1 1
        (mc_init (fun _ n => (n : ℝ)) (some 1) ⟨fun _ => 0, 0⟩)).1 ≠
      (simulate_gbm 1 1 (1/2) 1 1 1
        ((simulate_gbm 1 1 (1/2) 1 1 1
          (mc_init (fun _ n => (n : ℝ)) (some 1) ⟨fun _ => 0, 0⟩)).2)).1 := by
  have hinit : mc_init (fun _ n => (n : ℝ)) (some 1) ⟨fun _ => 0, 0⟩ =
      (⟨fun n => (n : ℝ), 0⟩ : NpRandom) := by
    simp [mc_init]
  rw [hinit]
  have hnext : (simulate_gbm 1 1 (1/2) 1 1 1 (⟨fun n => (n : ℝ), 0⟩ : NpRandom)).2 =
      (⟨fun n => (n : ℝ), 1⟩ : NpRandom) := rfl
  rw [hnext, simulate_gbm_one_step_eval, simulate_gbm_one_step_eval]
  intro h
  have h1 := List.head_eq_of_cons_eq h
  have h2 := List.head_eq_of_cons_eq (List.tail_eq_of_cons_eq h1)
  rw [Real.log_one] at h2
  norm_num [Real.sqrt_one] at h2
  have hlt : (1 : ℝ) < Real.exp 1 := by
    have he := Real.exp_lt_exp.mpr one_pos
    rwa [Real.exp_zero] at he
  exact absurd h2 (ne_of_lt hlt)

end MonteCarlo

namespace MonteCarlo

theorem gbm_path_length (S0 mu sigma dt : ℝ) (zrow : List ℝ) :
    (gbm_path S0 mu sigma dt zrow).length = zrow.length + 1 := by
  simp [gbm_path]

theorem gbm_path_head (S0 mu sigma dt : ℝ) (zrow : List ℝ) (hS0 : 0 < S0) :
    (gbm_path S0 mu sigma dt zrow).getD 0 0 = S0 := by
  have h0 : 0 < (gbm_path S0 mu sigma dt zrow).length := by
    rw [gbm_path_length]; omega
  rw [List.getD_eq_getElem _ _ h0]
  unfold gbm_path
  rw [List.getElem_map, List.getElem_range]
  simp [Real.exp_log hS0]

theorem gbm_path_step (S0 mu sigma dt : ℝ) (zrow : List ℝ) (t : ℕ) (ht : t < zrow.length) :
    (gbm_path S0 mu sigma dt zrow).getD (t + 1) 0 =
      (gbm_path S0 mu sigma dt zrow).getD t 0 *
        Real.exp ((mu - sigma ^ 2 / 2) * dt + sigma * Real.sqrt dt * zrow.getD t 0) := by
  have hlen : (gbm_path S0 mu sigma dt zrow).length = zrow.length + 1 := gbm_path_length _ _ _ _ _
  have h1 : t + 1 < (gbm_path S0 mu sigma dt zrow).length := by omega
  have h0 : t < (gbm_path S0 mu sigma dt zrow).length := by omega
  rw [List.getD_eq_getElem _ _ h1, List.getD_eq_getElem _ _ h0, List.getD_eq_getElem _ _ ht]
  unfold gbm_path
  rw [List.getElem_map, List.getElem_map, List.getElem_range, List.getElem_range]
  have hmlen : t < (zrow.map fun z =>
      (mu - sigma ^ 2 / 2) * dt + sigma * Real.sqrt dt * z).length := by
    simpa using ht
  rw [List.take_succ, List.getElem?_eq_getElem hmlen]
  rw [List.getElem_map]
  rw [List.sum_append, ← Real.exp_add]
  congr 1
  simp
  ring

/-- C7 amended: the ensemble of `MonteCarloSimulator.simulate_gbm` has
`n_paths` rows of `n_steps + 1` columns; column 0 of every row is the spot;
the columns follow the log-space recurrence
`S_{t+1} = S_t * exp((mu - sigma^2/2) dt + sigma sqrt(dt) Z_t)` with the
shocks read row-major off the generator stream; the default step count,
when no explicit step count is supplied, is `max(1, int(T*252))` —
truncation, not rounding; and `MonteCarloJAX._simulate_gbm_numpy` produces
rows of only `n_steps` columns, dropping the spot column. -/
theorem gbm_ensemble_spec (n_paths : ℕ) (S0 mu sigma : ℝ) (T : ℚ) (n_steps : ℕ)
    (st : NpRandom) (seedStream : ℕ → ℕ → ℝ) (seed : ℕ) (hS0 : 0 < S0) :
    (simulate_gbm n_paths S0 mu sigma T n_steps st).1.length = n_paths
    ∧ (∀ row ∈ (simulate_gbm n_paths S0 mu sigma T n_steps st).1, row.length = n_steps + 1)
    ∧ (∀ row ∈ (simulate_gbm n_paths S0 mu sigma T n_steps st).1, row.getD 0 0 = S0)
    ∧ (∀ p t, p < n_paths → t < n_steps →
        ((simulate_gbm n_paths S0 mu sigma T n_steps st).1.getD p []).getD (t + 1) 0 =
          ((simulate_gbm n_paths S0 mu sigma T n_steps st).1.getD p []).getD t 0 *
            Real.exp ((mu - sigma ^ 2 / 2) * ((T : ℝ) / (n_steps : ℝ)) +
              sigma * Real.sqrt ((T : ℝ) / (n_steps : ℝ)) *
                st.stream (st.pos + p * n_steps + t)))
    ∧ simulate_gbm_default n_paths S0 mu sigma T none st =
        simulate_gbm n_paths S0 mu sigma T (max 1 (pyInt (T * 252)).toNat) st
    ∧ (∀ row ∈ MonteCarloJax.simulate_gbm_numpy seedStream seed n_paths S0 mu sigma T n_steps,
        row.length = n_steps) := by
  refine ⟨?_, ?_, ?_, ?_, rfl, ?_⟩
  · simp [simulate_gbm, standard_normal]
  · intro row hrow
    simp only [simulate_gbm, standard_normal, List.mem_map] at hrow
    obtain ⟨zrow, hz, hrow⟩ := hrow
    obtain ⟨p, hp, hz⟩ := hz
    rw [← hrow, gbm_path_length, ← hz]
    simp
  · intro row hrow
    simp only [simulate_gbm, standard_normal, List.mem_map] at hrow
    obtain ⟨zrow, _, hrow⟩ := hrow
    rw [← hrow]
    exact gbm_path_head _ _ _ _ _ hS0
  · intro p t hp ht
    have hp2 : p < ((standard_normal st n_paths n_steps).1).length := by
      simp [standard_normal, hp]
    have hrow : (simulate_gbm n_paths S0 mu sigma T n_steps st).1.getD p [] =
        gbm_path S0 mu sigma ((T : ℝ) / (n_steps : ℝ))
          ((List.range n_steps).map fun u => st.stream (st.pos + p * n_steps + u)) := by
      have hp3 : p < ((standard_normal st n_paths n_steps).1.map
          (gbm_path S0 mu sigma ((T : ℝ) / (n_steps : ℝ)))).length := by
        simpa using hp2
      rw [show (simulate_gbm n_paths S0 mu sigma T n_steps st).1 =
        (standard_normal st n_paths n_steps).1.map
          (gbm_path S0 mu sigma ((T : ℝ) / (n_steps : ℝ))) from rfl]
      rw [List.getD_eq_getElem _ _ hp3, List.getElem_map]
      congr 1
      show ((List.range n_paths).map fun q =>
        (List.range n_steps).map fun u => st.stream (st.pos + q * n_steps + u))[p] = _
      rw [List.getElem_map, List.getElem_range]
    rw [hrow, gbm_path_step _ _ _ _ _ t (by simpa using ht)]
    have hzt : ((List.range n_steps).map fun u =>
        st.stream (st.pos + p * n_steps + u)).getD t 0 =
        st.stream (st.pos + p * n_steps + t) := by
      have htl : t < ((List.range n_steps).map fun u =>
          st.stream (st.pos + p * n_steps + u)).length := by simpa using ht
      rw [List.getD_eq_getElem _ _ htl, List.getElem_map, List.getElem_range]
    rw [hzt]
  · intro row hrow
    simp only [MonteCarloJax.simulate_gbm_numpy, standard_normal, List.mem_map] at hrow
    obtain ⟨zrow, _, hrow⟩ := hrow
    rw [← hrow]
    simp

theorem gbm_ensemble_spec_witness :
    (simulate_gbm 1 1 0 1 1 1 ⟨fun _ => 0, 0⟩).1.length = 1
    ∧ (∀ row ∈ (simulate_gbm 1 1 0 1 1 1 ⟨fun _ => 0, 0⟩).1, row.length = 1 + 1)
    ∧ (∀ row ∈ (simulate_gbm 1 1 0 1 1 1 ⟨fun _ => 0, 0⟩).1, row.getD 0 0 = 1)
    ∧ (∀ p t, p < 1 → t < 1 →
        ((simulate_gbm 1 1 0 1 1 1 ⟨fun _ => 0, 0⟩).1.getD p []).getD (t + 1) 0 =
          ((simulate_gbm 1 1 0 1 1 1 ⟨fun _ => 0, 0⟩).1.getD p []).getD t 0 *
            Real.exp ((0 - 1 ^ 2 / 2) * (((1 : ℚ) : ℝ) / ((1 : ℕ) : ℝ)) +
              1 * Real.sqrt (((1 : ℚ) : ℝ) / ((1 : ℕ) : ℝ)) * 0))
    ∧ simulate_gbm_default 1 1 0 1 1 none ⟨fun _ => 0, 0⟩ =
        simulate_gbm 1 1 0 1 1 (max 1 (pyInt (1 * 252)).toNat) ⟨fun _ => 0, 0⟩
    ∧ (∀ row ∈ MonteCarloJax.simulate_gbm_numpy (fun _ _ => 0) 42 1 1 0 1 1 1,
        row.length = 1) :=
  gbm_ensemble_spec 1 1 0 1 1 1 ⟨fun _ => 0, 0⟩ (fun _ _ => 0) 42 one_pos

/-- C7 counterexample: the claimed default step count is
`max(1, round(T*252))`, the code computes `max(1, int(T*252))`.  At
`T = 4/365` years (`T*252 = 1008/365 ≈ 2.76`) the code truncates to 2 steps
(rows of 3 prices), the claim demands 3 steps (rows of 4 prices). -/
theorem gbm_default_steps_counterexample :
    default_n_steps (4 / 365) = 2
    ∧ max 1 (round ((4 : ℚ) / 365 * 252)).toNat = 3
    ∧ ((simulate_gbm_default 1 1 0 1 (4 / 365) none ⟨fun _ => 0, 0⟩).1.headD []).length = 2 + 1
    ∧ (2 : ℕ) ≠ 3 := by
  have hfl : Int.floor ((4 : ℚ) / 365 * 252) = 2 := by
    rw [Int.floor_eq_iff]
    norm_num
  have hsteps : default_n_steps (4 / 365) = 2 := by
    rw [default_n_steps, pyInt, if_pos (by norm_num : (0 : ℚ) ≤ 4 / 365 * 252), hfl]
    rfl
  refine ⟨hsteps, ?_, ?_, by decide⟩
  · rw [round_eq, show (4 : ℚ) / 365 * 252 + 1 / 2 = 2381 / 730 from by norm_num]
    rw [show Int.floor ((2381 : ℚ) / 730) = 3 from by
      rw [Int.floor_eq_iff]; norm_num]
    rfl
  · rw [simulate_gbm_default, Option.getD_none, hsteps]
    simp [simulate_gbm, standard_normal, gbm_path, List.range_succ]

end MonteCarlo

namespace GreeksCalculator

theorem brentqW_spec : BrentqSpec brentqW := by
  constructor
  · intro f a b xt mi root hok
    unfold brentqW at hok
    by_cases h : ∃ fa fb, f a = some fa ∧ f b = some fb ∧ a ≤ b ∧ ¬0 < fa * fb
    · rw [if_pos h] at hok
      injection hok with hr
      subst hr
      obtain ⟨fa, fb, _, _, hab, _⟩ := h
      exact ⟨le_refl _, hab⟩
    · rw [if_neg h] at hok
      cases hok
  · intro f a b xt mi hfail
    unfold brentqW
    rw [if_neg]
    rintro ⟨fa, fb, hfa, hfb, _, hns⟩
    exact hns (hfail fa fb hfa hfb)

end GreeksCalculator

namespace GreeksCalculator

/-- Unfolding of `calculate_implied_vol` for an absent spot. -/
theorem calculate_implied_vol_none
    (brentq : (ℝ → Option ℝ) → ℝ → ℝ → ℝ → ℕ → Except Unit ℝ)
    (cdf : ℝ → ℝ) (market : MarketData) (pos : GreekPos)
    (hm : market.current_price = none) :
    calculate_implied_vol brentq cdf market pos = none := by
  unfold calculate_implied_vol
  rw [hm]

/-- Unfolding of `calculate_implied_vol` for a present spot. -/
theorem calculate_implied_vol_some
    (brentq : (ℝ → Option ℝ) → ℝ → ℝ → ℝ → ℕ → Except Unit ℝ)
    (cdf : ℝ → ℝ) (market : MarketData) (pos : GreekPos) (S : ℝ)
    (hm : market.current_price = some S) :
    calculate_implied_vol brentq cdf market pos =
      (if S = 0 ∨ pos.current_premium.getD 0 = 0 ∨ pos.dte / 365 ≤ 0 ∨
          pos.current_premium.getD 0 ≤ 0 then none
       else
         match brentq
             (iv_objective cdf S pos.strike (pos.dte / 365) (5 / 100)
               (pos.current_premium.getD 0) (pos.type == "call"))
             (1 / 100) 3 (1 / 1000000) 100 with
         | Except.ok iv => some (pyRound iv 4)
         | Except.error _ => none) := by
  unfold calculate_implied_vol
  rw [hm]

/-- C5: the IV solver never throws: its result is either `none`
("unavailable") or the bracketed root found on `[0.01, 3.00]` by `brentq`
(called with tolerance `1e-6` and iteration cap 100) rounded to 4 decimal
places; and it returns `none` whenever the spot is missing or non-positive,
the option price is non-positive, the time to expiry is non-positive, or the
objective has no sign change over the bracket (no root).  `brentq` is any
routine satisfying scipy's documented contract; the positive-strike
hypothesis reflects the data model (`strike > 0`). -/
theorem iv_solver_spec
    (brentq : (ℝ → Option ℝ) → ℝ → ℝ → ℝ → ℕ → Except Unit ℝ)
    (cdf : ℝ → ℝ) (market : MarketData) (pos : GreekPos)
    (hspec : BrentqSpec brentq) (hK : 0 < pos.strike) :
    (market.current_price = none → calculate_implied_vol brentq cdf market pos = none)
    ∧ (∀ S, market.current_price = some S → S ≤ 0 →
        calculate_implied_vol brentq cdf market pos = none)
    ∧ (pos.current_premium.getD 0 ≤ 0 → calculate_implied_vol brentq cdf market pos = none)
    ∧ (pos.dte / 365 ≤ 0 → calculate_implied_vol brentq cdf market pos = none)
    ∧ (∀ S, market.current_price = some S →
        brentqFails
          (iv_objective cdf S pos.strike (pos.dte / 365) (5 / 100)
            (pos.current_premium.getD 0) (pos.type == "call")) (1 / 100) 3 →
        calculate_implied_vol brentq cdf market pos = none)
    ∧ (∀ iv, calculate_implied_vol brentq cdf market pos = some iv →
        ∃ root, 1 / 100 ≤ root ∧ root ≤ 3 ∧
          brentq
            (iv_objective cdf (market.current_price.getD 0) pos.strike (pos.dte / 365)
              (5 / 100) (pos.current_premium.getD 0) (pos.type == "call"))
            (1 / 100) 3 (1 / 1000000) 100 = Except.ok root ∧
          iv = pyRound root 4) := by
  refine ⟨?_, ?_, ?_, ?_, ?_, ?_⟩
  · intro hm
    exact calculate_implied_vol_none brentq cdf market pos hm
  · intro S hm hS
    rw [calculate_implied_vol_some brentq cdf market pos S hm]
    by_cases hg : S = 0 ∨ pos.current_premium.getD 0 = 0 ∨ pos.dte / 365 ≤ 0 ∨
        pos.current_premium.getD 0 ≤ 0
    · rw [if_pos hg]
    · have hg2 := hg
      push_neg at hg2
      obtain ⟨hS0, _, hT, _⟩ := hg2
      have hSneg : S < 0 := lt_of_le_of_ne hS hS0
      have hobj : iv_objective cdf S pos.strike (pos.dte / 365) (5 / 100)
          (pos.current_premium.getD 0) (pos.type == "call") (1 / 100) = none := by
        rw [iv_objective, if_neg (by norm_num : ¬(1 : ℝ) / 100 ≤ 0)]
        rw [bs_price, if_neg (by push_neg; exact ⟨hT, by norm_num⟩)]
        rw [npLog, if_neg (not_lt.mpr (le_of_lt (div_neg_of_neg_of_pos hSneg hK)))]
        rfl
      have hfail : brentqFails
          (iv_objective cdf S pos.strike (pos.dte / 365) (5 / 100)
            (pos.current_premium.getD 0) (pos.type == "call")) (1 / 100) 3 := by
        intro fa fb hfa _
        rw [hobj] at hfa
        cases hfa
      have herr := hspec.error_of_no_sign_change _ (1 / 100) 3 (1 / 1000000) 100 hfail
      rw [if_neg hg, herr]
  · intro hP
    rcases hmk : market.current_price with _ | S
    · exact calculate_implied_vol_none brentq cdf market pos hmk
    · rw [calculate_implied_vol_some brentq cdf market pos S hmk]
      rw [if_pos (Or.inr (Or.inr (Or.inr hP)))]
  · intro hT
    rcases hmk : market.current_price with _ | S
    · exact calculate_implied_vol_none brentq cdf market pos hmk
    · rw [calculate_implied_vol_some brentq cdf market pos S hmk]
      rw [if_pos (Or.inr (Or.inr (Or.inl hT)))]
  · intro S hm hfail
    have herr := hspec.error_of_no_sign_change _ (1 / 100) 3 (1 / 1000000) 100 hfail
    rw [calculate_implied_vol_some brentq cdf market pos S hm]
    by_cases hg : S = 0 ∨ pos.current_premium.getD 0 = 0 ∨ pos.dte / 365 ≤ 0 ∨
        pos.current_premium.getD 0 ≤ 0
    · rw [if_pos hg]
    · rw [if_neg hg, herr]
  · intro iv hiv
    rcases hmk : market.current_price with _ | S
    · rw [calculate_implied_vol_none brentq cdf market pos hmk] at hiv
      cases hiv
    · rw [calculate_implied_vol_some brentq cdf market pos S hmk] at hiv
      by_cases hg : S = 0 ∨ pos.current_premium.getD 0 = 0 ∨ pos.dte / 365 ≤ 0 ∨
          pos.current_premium.getD 0 ≤ 0
      · rw [if_pos hg] at hiv
        cases hiv
      · rw [if_neg hg] at hiv
        rcases hbr : brentq
            (iv_objective cdf S pos.strike (pos.dte / 365) (5 / 100)
              (pos.current_premium.getD 0) (pos.type == "call"))
            (1 / 100) 3 (1 / 1000000) 100 with root | e
        · rw [hbr] at hiv
          cases hiv
        · rw [hbr] at hiv
          injection hiv with hr
          obtain ⟨h1, h2⟩ := hspec.mem_of_ok _ _ _ _ _ _ hbr
          refine ⟨e, h1, h2, ?_, hr.symm⟩
          simpa using hbr

end GreeksCalculator

namespace GreeksCalculator

theorem iv_solver_spec_witness :
    calculate_implied_vol brentqW (fun _ => 0) ⟨some (-1)⟩ ⟨100, 365, "call", some 5⟩ =
      none :=
  (iv_solver_spec brentqW (fun _ => 0) ⟨some (-1)⟩ ⟨100, 365, "call", some 5⟩ brentqW_spec
    (by norm_num)).2.1 (-1) rfl (by norm_num)

/-- Unfolding of `calculate_bs` in the degenerate branch. -/
theorem calculate_bs_degenerate (cdf : ℝ → ℝ) (market : MarketData) (pos : GreekPos)
    (sigma S : ℝ) (hm : market.current_price = some S)
    (hdeg : pos.dte / 365 ≤ 0 ∨ sigma ≤ 0) :
    calculate_bs cdf market pos sigma = ⟨some 0, some 0, some 0, some 0, some sigma⟩ := by
  unfold calculate_bs
  rw [hm]
  exact if_pos hdeg

/-- C4 amended: when `T ≤ 0` or `sigma ≤ 0` the pricer returns the intrinsic
value (`max(S-K, 0)` for a call, `max(K-S, 0)` for a put) and the Greeks
collapse to the code's degenerate dict: `delta = 0` uniformly (not the
moneyness indicator), `gamma = theta = vega = 0`, and `iv` is the input
`sigma` unchanged. -/
theorem degenerate_pricer_limits (cdf : ℝ → ℝ) (S K T r sigma : ℝ) (is_call : Bool)
    (market : MarketData) (pos : GreekPos) (Sm sigma2 : ℝ)
    (hdeg : T ≤ 0 ∨ sigma ≤ 0) (hm : market.current_price = some Sm)
    (hdeg2 : pos.dte / 365 ≤ 0 ∨ sigma2 ≤ 0) :
    bs_price cdf S K T r sigma is_call =
        some (if is_call then max (S - K) 0 else max (K - S) 0)
    ∧ calculate_bs cdf market pos sigma2 =
        ⟨some 0, some 0, some 0, some 0, some sigma2⟩ := by
  constructor
  · rw [bs_price, if_pos hdeg]
  · exact calculate_bs_degenerate cdf market pos sigma2 Sm hm hdeg2

theorem degenerate_pricer_limits_witness :
    bs_price (fun _ => 0) 2 1 0 0 (1 / 5) true =
        some (if true then max (2 - (1 : ℝ)) 0 else max ((1 : ℝ) - 2) 0)
    ∧ calculate_bs (fun _ => 0) ⟨some 2⟩ ⟨1, 0, "call", none⟩ (1 / 5) =
        ⟨some 0, some 0, some 0, some 0, some (1 / 5)⟩ :=
  degenerate_pricer_limits (fun _ => 0) 2 1 0 0 (1 / 5) true ⟨some 2⟩ ⟨1, 0, "call", none⟩
    2 (1 / 5) (Or.inl (le_refl 0)) rfl (Or.inl (by norm_num))

/-- C4 counterexample: at `S = 110`, `K = 100`, `T = 0` (expired), call,
`sigma = 1/5`, the claim asserts `delta` equals the moneyness indicator
(here 1, since `S > K`), but the code stores `delta = 0`. -/
theorem degenerate_delta_counterexample :
    (calculate_bs (fun _ => 0) ⟨some 110⟩ ⟨100, 0, "call", none⟩ (1 / 5)).delta = some 0
    ∧ claim_degenerate_delta 110 100 true = 1
    ∧ some (0 : ℝ) ≠ some (1 : ℝ) := by
  refine ⟨?_, ?_, by norm_num⟩
  · rw [calculate_bs_degenerate (fun _ => 0) ⟨some 110⟩ ⟨100, 0, "call", none⟩ (1 / 5) 110 rfl
      (Or.inl (by norm_num))]
  · norm_num [claim_degenerate_delta]

/-- Unfolding of `enrich_position` when the IV solver fails. -/
theorem enrich_position_none
    (brentq : (ℝ → Option ℝ) → ℝ → ℝ → ℝ → ℕ → Except Unit ℝ)
    (cdf : ℝ → ℝ) (market : MarketData) (pos : GreekPos)
    (hiv : calculate_implied_vol brentq cdf market pos = none) :
    enrich_position brentq cdf market pos =
      ⟨none, none, none, none, none, "unavailable"⟩ := by
  unfold enrich_position
  rw [hiv]

/-- Unfolding of `enrich_position` when the IV solver returns a value. -/
theorem enrich_position_some
    (brentq : (ℝ → Option ℝ) → ℝ → ℝ → ℝ → ℕ → Except Unit ℝ)
    (cdf : ℝ → ℝ) (market : MarketData) (pos : GreekPos) (v : ℝ)
    (hiv : calculate_implied_vol brentq cdf market pos = some v) :
    enrich_position brentq cdf market pos =
      (if v ≠ 0 ∧ 1 / 100 < v then
        ⟨(calculate_bs cdf market pos v).delta, (calculate_bs cdf market pos v).gamma,
          (calculate_bs cdf market pos v).theta, (calculate_bs cdf market pos v).vega,
          (calculate_bs cdf market pos v).iv, "calculated_from_price"⟩
       else ⟨none, none, none, none, none, "unavailable"⟩) := by
  unfold enrich_position
  rw [hiv]

/-- C10: the enrichment step attaches Greeks only when the solved implied
volatility is strictly greater than 0.01; whenever the solver returns `none`
or any value at or below 0.01, every Greek field and `iv` are set to `None`
and `iv_source` to `"unavailable"` — Greek values are never fabricated for
such positions.  (`enrich_positions` is the per-position body mapped over
the list, last conjunct.) -/
theorem greeks_unavailable_policy
    (brentq : (ℝ → Option ℝ) → ℝ → ℝ → ℝ → ℕ → Except Unit ℝ)
    (cdf : ℝ → ℝ) (market : MarketData) (pos : GreekPos) :
    (calculate_implied_vol brentq cdf market pos = none →
      enrich_position brentq cdf market pos =
        ⟨none, none, none, none, none, "unavailable"⟩)
    ∧ (∀ v, calculate_implied_vol brentq cdf market pos = some v → v ≤ 1 / 100 →
      enrich_position brentq cdf market pos =
        ⟨none, none, none, none, none, "unavailable"⟩)
    ∧ (∀ v, calculate_implied_vol brentq cdf market pos = some v → 1 / 100 < v →
      enrich_position brentq cdf market pos =
        ⟨(calculate_bs cdf market pos v).delta, (calculate_bs cdf market pos v).gamma,
          (calculate_bs cdf market pos v).theta, (calculate_bs cdf market pos v).vega,
          (calculate_bs cdf market pos v).iv, "calculated_from_price"⟩)
    ∧ enrich_positions brentq cdf market [pos] =
        [enrich_position brentq cdf market pos] := by
  refine ⟨?_, ?_, ?_, rfl⟩
  · intro hiv
    exact enrich_position_none brentq cdf market pos hiv
  · intro v hiv hle
    rw [enrich_position_some brentq cdf market pos v hiv]
    rw [if_neg]
    intro hc
    exact absurd hc.2 (not_lt.mpr hle)
  · intro v hiv hgt
    rw [enrich_position_some brentq cdf market pos v hiv]
    rw [if_pos ⟨ne_of_gt (lt_trans (by norm_num : (0 : ℝ) < 1 / 100) hgt), hgt⟩]

theorem greeks_unavailable_policy_witness :
    enrich_position brentqW (fun _ => 0) ⟨none⟩ ⟨100, 365, "call", some 5⟩ =
      ⟨none, none, none, none, none, "unavailable"⟩ :=
  (greeks_unavailable_policy brentqW (fun _ => 0) ⟨none⟩ ⟨100, 365, "call", some 5⟩).1
    (calculate_implied_vol_none brentqW (fun _ => 0) ⟨none⟩ ⟨100, 365, "call", some 5⟩ rfl)

end GreeksCalculator
